import Mathlib

/-!
Verification of the document-structuring pipeline of Repo_Docmaster.

The Python sources `mainfolder/document_handler.py` and
`mainfolder/section_predictor.py` are embedded shallowly below.  Strings are
handled as `List Char` internally (Python `str` operations are per-character),
with `String` wrappers at the data-model boundary.  The embedding restricts
Python's Unicode-aware character classes to their ASCII behaviour, which is
exact for every input the specification talks about.
-/

/-- Python whitespace test used by `str.strip` / `\s` (ASCII fragment). -/
def isPySpace (c : Char) : Bool :=
  c = ' ' || c = '\t' || c = '\n' || c = '\r' || c = '\x0b' || c = '\x0c'

/-- Python `\d` digit test (ASCII fragment). -/
def isPyDigit (c : Char) : Bool :=
  '0' ≤ c && c ≤ '9'

/-- Characters on which Python `str.splitlines` breaks lines. -/
def lineBreakChar (c : Char) : Bool :=
  c = '\n' || c = '\r' || c = '\x0b' || c = '\x0c' || c = '\x1c' ||
  c = '\x1d' || c = '\x1e' || c = '\x85' || c = '\u2028' || c = '\u2029'

/-- Remove trailing whitespace characters (right half of `str.strip`). -/
def dropTrailL (l : List Char) : List Char :=
  (l.reverse.dropWhile isPySpace).reverse

/-- Python `str.strip()` on a character list. -/
def stripL (l : List Char) : List Char :=
  (dropTrailL l).dropWhile isPySpace

/-- Python `str.strip()` on a `String`. -/
def pyStrip (s : String) : String :=
  ⟨stripL s.data⟩

/-- Python `str.lower()` (ASCII fragment). -/
def lowerL (l : List Char) : List Char :=
  l.map Char.toLower

/-- Worker for `pySplitlinesL`; `acc` holds the current line reversed. -/
def pySplitAux : List Char → List Char → List (List Char)
  | [], acc => [acc.reverse]
  | '\r' :: '\n' :: rest, acc =>
      acc.reverse :: (if rest = [] then [] else pySplitAux rest [])
  | c :: rest, acc =>
      if lineBreakChar c then
        acc.reverse :: (if rest = [] then [] else pySplitAux rest [])
      else
        pySplitAux rest (c :: acc)

/-- Python `str.splitlines()`: no trailing empty line, `""` gives `[]`. -/
def pySplitlinesL (s : List Char) : List (List Char) :=
  if s = [] then [] else pySplitAux s []

/-- Lines of an input string, as `parse_text` iterates over them. -/
def pyLines (s : String) : List (List Char) :=
  pySplitlinesL s.data

/-- Worker for `splitWords`; `cur` holds the current word reversed. -/
def splitWordsAux : List Char → List Char → List (List Char)
  | [], cur => if cur = [] then [] else [cur.reverse]
  | c :: rest, cur =>
      if isPySpace c then
        (if cur = [] then [] else [cur.reverse]) ++ splitWordsAux rest []
      else
        splitWordsAux rest (c :: cur)

/-- Split a character list into maximal whitespace-free words. -/
def splitWords (l : List Char) : List (List Char) :=
  splitWordsAux l []

/-- ASCII letter test (Python `str.title` word-boundary logic on ASCII). -/
def isAsciiAlpha (c : Char) : Bool :=
  ('a' ≤ c && c ≤ 'z') || ('A' ≤ c && c ≤ 'Z')

/-- Worker for `titleL`: `prevAlpha` records whether the previous character
was a letter, exactly as Python `str.title` tracks cased characters. -/
def titleAux : List Char → Bool → List Char
  | [], _ => []
  | c :: rest, prevAlpha =>
      if isAsciiAlpha c then
        (if prevAlpha then c.toLower else c.toUpper) :: titleAux rest true
      else
        c :: titleAux rest false

/-- Python `str.title()` (ASCII fragment). -/
def titleL (l : List Char) : List Char :=
  titleAux l false

/-- Python `" ".join(parts)`. -/
def joinSpaceL : List (List Char) → List Char
  | [] => []
  | [b] => b
  | b :: b2 :: bs => b ++ ' ' :: joinSpaceL (b2 :: bs)

/-- Does `l` start with the pattern `pat`? -/
def startsWithL : List Char → List Char → Bool
  | [], _ => true
  | _ :: _, [] => false
  | p :: ps, c :: cs => p = c && startsWithL ps cs

/-- Python substring test `pat in l`. -/
def substrL (pat : List Char) : List Char → Bool
  | [] => startsWithL pat []
  | c :: rest => startsWithL pat (c :: rest) || substrL pat rest

/-- Word sequences accepted by `DocumentHandler.SECTION_PATTERNS`: each regex
`^\s*(w1\s+w2...)\s*$` matches a (stripped, lowercased) candidate exactly when
the candidate's whitespace-separated words equal one of these sequences. -/
def sectionKeywordLists : List (List String) :=
  [["abstract"],
   ["introduction"],
   ["literature", "review"],
   ["background"],
   ["methodology"], ["materials", "and", "methods"], ["methods"],
   ["experiment"], ["experimental", "setup"],
   ["results"], ["findings"], ["analysis"],
   ["discussion"], ["observations"],
   ["conclusion"], ["summary"], ["closing", "remarks"],
   ["future", "work"], ["recommendations"],
   ["references"], ["bibliography"], ["works", "cited"]]

/-- Does the candidate text match one of `SECTION_PATTERNS` as a whole line? -/
def headingWordsMatch (c : List Char) : Bool :=
  sectionKeywordLists.any (fun kw => (splitWords c).map String.mk == kw)

/-- Group 1 of `re.match(r'^\s*\d+[\.\)]\s*(.+)$', l)`, stripped: the heading
candidate after removing a numbering such as `1.` or `2)`. -/
def numberedCandidateL (l : List Char) : Option (List Char) :=
  let t1 := l.dropWhile isPySpace
  match t1.takeWhile isPyDigit, t1.dropWhile isPyDigit with
  | [], _ => none
  | _ :: _, sep :: r2 =>
      if sep = '.' || sep = ')' then
        let r3 := r2.dropWhile isPySpace
        if r3 = [] then none else some (stripL r3)
      else none
  | _ :: _, [] => none

/-- Python `re.sub(r'^\s*\d+[\.\)]\s*', '', text)`: remove a leading
numbering prefix when present, otherwise leave the text unchanged. -/
def stripNumberingL (t : List Char) : List Char :=
  let t1 := t.dropWhile isPySpace
  match t1.takeWhile isPyDigit, t1.dropWhile isPyDigit with
  | _ :: _, sep :: r2 =>
      if sep = '.' || sep = ')' then r2.dropWhile isPySpace else t
  | _, _ => t

/-- Does the line match a recognized heading pattern as an entire line after
numbering-stripping?  This is the condition `_detect_heading` tests. -/
def headingCandidateMatches (text : List Char) : Bool :=
  let l := stripL (lowerL text)
  headingWordsMatch ((numberedCandidateL l).getD l)

/-- `DocumentHandler._detect_heading`. -/
def detectHeadingL (text : List Char) : Option String :=
  if text = [] then none
  else if headingCandidateMatches text then
    some ⟨titleL (stripL (stripNumberingL text))⟩
  else none

/-- `DocumentHandler._detect_heading` on a `String`. -/
def detectHeadingS (s : String) : Option String :=
  detectHeadingL s.data

/-- Digits, then one of `: . - )`, then at least one whitespace character:
the tail of `FIGURE_CAPTION_PATTERN` after the `fig`/`figure` keyword. -/
def capAfterKey (rest : List Char) : Bool :=
  let r1 := rest.dropWhile isPySpace
  match r1.takeWhile isPyDigit, r1.dropWhile isPyDigit with
  | _ :: _, sep :: r2 =>
      (sep = ':' || sep = '.' || sep = '-' || sep = ')') &&
      (match r2 with
       | c :: _ => isPySpace c
       | [] => false)
  | _, _ => false

/-- `DocumentHandler.FIGURE_CAPTION_PATTERN.match`, i.e. the case-insensitive
regex `^(fig(ure)?\s*\d+[:.\-)]\s+).*`. -/
def captionMatchL (s : List Char) : Bool :=
  let l := lowerL s
  (startsWithL "figure".data l && capAfterKey (l.drop 6)) ||
  (startsWithL "fig".data l && capAfterKey (l.drop 3))

/-- Is this optional string truthy in Python and a caption line? -/
def capLineOk : Option String → Bool
  | none => false
  | some s => decide (s ≠ "") && captionMatchL s.data

/-- `DocumentHandler._detect_caption`. -/
def detectCaption (previous current : Option String) : Option String :=
  if capLineOk previous then previous
  else if capLineOk current then current
  else none

/-- Python `re.match(r"^\[\d+\]", l)`: a bracketed numeral reference prefix. -/
def startsBracketNumL (l : List Char) : Bool :=
  match l with
  | '[' :: rest =>
      (match rest.takeWhile isPyDigit with
       | [] => false
       | _ :: _ =>
         match rest.dropWhile isPyDigit with
         | ']' :: _ => true
         | _ => false)
  | _ => false

/-- The fixed keyword set of `section_predictor._rule_based_label`. -/
def customKeywords : List String :=
  ["acknowledg", "acknowledgement", "acknowledgment",
   "declaration", "certificate",
   "plagiarism", "bona fide", "supervisor certificate"]

/-- `section_predictor._rule_based_label`. -/
def ruleBasedLabel (text : String) : Option String :=
  let low := stripL (lowerL text.data)
  if startsBracketNumL (stripL text.data) then some "REFERENCES"
  else if substrL "doi.org".data low || substrL "http://".data low ||
          substrL "https://".data low then some "REFERENCES"
  else if customKeywords.any (fun w => substrL w.data low) then some "CUSTOM"
  else none

/-- `section_predictor.predict_section`.  The pretrained statistical
classifier (vectorizer composed with the SVM) is an external collaborator and
enters the model as the function argument `classifier`. -/
def predict_section (classifier : String → String) (text : String) : String :=
  let t := pyStrip text
  if t.data.length < 20 then "CUSTOM"
  else
    match ruleBasedLabel t with
    | some r => r
    | none => classifier t

/-- A content element of the structured model: the dictionaries with `"type"`
equal to `"text"`, `"image"` or `"table"` built by `DocumentHandler`. -/
inductive Elem where
  | text (content : String)
  | image (path : Option String) (caption : Option String)
      (altText : String) (virtual : Bool)
  | table (rows : List (List String))
deriving DecidableEq

/-- The finalized model: insertion-ordered `sections` dict (association
list) plus the `detected_order` list. -/
structure ContentModel where
  sections : List (String × List Elem)
  order : List String
deriving DecidableEq

/-- Mutable state of the `parse_text` loop. -/
structure PState where
  sections : List (String × List Elem)
  order : List String
  current : String
  buffer : List (List Char)
deriving DecidableEq

/-- Append an element to the bucket of key `k` (Python
`self.sections[k].append(e)`; `k` is always present when called). -/
def appendElem (secs : List (String × List Elem)) (k : String) (e : Elem) :
    List (String × List Elem) :=
  secs.map (fun p => if p.1 = k then (p.1, p.2 ++ [e]) else p)

/-- The local `flush()` of `parse_text`: join the buffered lines with single
spaces, strip, and append the paragraph to the current section when it is
non-empty. -/
def flush (st : PState) : PState :=
  if st.buffer = [] then st
  else if stripL (joinSpaceL st.buffer) = [] then { st with buffer := [] }
  else
    { st with
      sections :=
        appendElem st.sections st.current
          (Elem.text ⟨stripL (joinSpaceL st.buffer)⟩),
      buffer := [] }

/-- One iteration of the `for line in text.splitlines()` loop. -/
def step (st : PState) (line : List Char) : PState :=
  if stripL line = [] then flush st
  else
    match detectHeadingL (stripL line) with
    | some h =>
        if h ∈ (flush st).sections.map Prod.fst then
          { flush st with current := h }
        else
          { flush st with
            current := h,
            sections := (flush st).sections ++ [(h, [])],
            order := (flush st).order ++ [h] }
    | none => { st with buffer := st.buffer ++ [stripL line] }

/-- State of `parse_text` just after resetting and seeding "Uncategorized". -/
def initPS : PState :=
  { sections := [("Uncategorized", [])],
    order := ["Uncategorized"],
    current := "Uncategorized",
    buffer := [] }

/-- State after the loop and the final `flush()`, before `_cleanup`. -/
def finalSt (text : String) : PState :=
  flush ((pyLines text).foldl step initPS)

/-- `DocumentHandler._cleanup`: drop empty sections, sync the order list. -/
def cleanupModel (secs : List (String × List Elem)) (ord : List String) :
    ContentModel :=
  { sections := secs.filter (fun p => decide (p.2 ≠ [])),
    order :=
      ord.filter
        (fun n => (secs.filter (fun p => decide (p.2 ≠ []))).any
          (fun p => p.1 == n)) }

/-- `DocumentHandler.parse_text` as a function from the input to the
finalized model. -/
def parseTextModel (text : String) : ContentModel :=
  cleanupModel (finalSt text).sections (finalSt text).order

/-- The mutable fields of a `DocumentHandler` instance. -/
structure Handler where
  sections : List (String × List Elem)
  detected_order : List String
  lastText : Option String
deriving DecidableEq

/-- `DocumentHandler.parse_text` acting on a handler: it resets `sections`
and `detected_order` before the walk and never reads their previous values;
`_last_text` is not touched by `parse_text`. -/
def parseTextH (h : Handler) (text : String) : Handler :=
  { sections := (parseTextModel text).sections,
    detected_order := (parseTextModel text).order,
    lastText := h.lastText }

/-- A relationship of the DOCX package (`doc.part.rels`).  `fails` marks a
relationship whose target part cannot be read or written out: accessing it
raises, which `_extract_all_images` swallows with `continue`. -/
structure DocxRel where
  rId : String
  reltype : String
  fname : String
  fails : Bool

/-- An inline embedded image reference inside a paragraph run (`a:blip`
node with an `embed` attribute, plus its optional `descr`). -/
structure ParaImage where
  embedRId : String
  descr : Option String

/-- A paragraph of the DOCX body. -/
structure DocxPara where
  text : String
  images : List ParaImage

/-- A typed node of the DOCX body, in original order (CT_P or CT_Tbl). -/
inductive DocxBlock where
  | par (p : DocxPara)
  | tbl (rows : List (List String))

/-- A readable DOCX document as `python-docx` presents it to the parser. -/
structure DocxDoc where
  rels : List DocxRel
  body : List DocxBlock

/-- `DocumentHandler._extract_all_images`: build the rId → file-path map,
skipping (with `continue`) every relationship whose extraction raises. -/
def extractAllImages (imageDir : String) (rels : List DocxRel) :
    List (String × String) :=
  rels.foldl
    (fun acc r =>
      if r.fails then acc
      else if substrL "image".data r.reltype.data then
        acc ++ [(r.rId, imageDir ++ "/" ++ r.fname)]
      else acc)
    []

/-- Python `dict.get` on an assignment-ordered association list: the last
assignment to a key wins. -/
def dictGet (m : List (String × String)) (k : String) : Option String :=
  m.foldl (fun acc p => if p.1 = k then some p.2 else acc) none

/-- `DocumentHandler._extract_images_from_paragraph`. -/
def extractImagesFromParagraph (p : DocxPara) (imap : List (String × String)) :
    List Elem :=
  p.images.foldl
    (fun acc im =>
      acc ++ [Elem.image (dictGet imap im.embedRId) none (im.descr.getD "") false])
    []

/-- Overwrite the caption field of an image element
(`img["caption"] = ...`). -/
def setCaption (e : Elem) (cap : Option String) : Elem :=
  match e with
  | Elem.image path _ alt virt => Elem.image path cap alt virt
  | e => e

/-- Mutable state of the `parse_docx` body loop. -/
structure DState where
  sections : List (String × List Elem)
  order : List String
  current : String
  lastText : Option String

/-- One iteration of the `for block in doc.element.body` loop. -/
def docxStep (imap : List (String × String)) (st : DState) (b : DocxBlock) :
    DState :=
  match b with
  | DocxBlock.par p =>
      let txt : String := pyStrip p.text
      let heading := if txt = "" then none else detectHeadingS txt
      match heading with
      | some h =>
          if h ∈ st.sections.map Prod.fst then
            { st with current := h, lastText := some txt }
          else
            { st with
              current := h,
              sections := st.sections ++ [(h, [])],
              order := st.order ++ [h],
              lastText := some txt }
      | none =>
          let imgs := extractImagesFromParagraph p imap
          if imgs ≠ [] then
            let cap := detectCaption st.lastText (some txt)
            { st with
              sections :=
                imgs.foldl
                  (fun secs img => appendElem secs st.current (setCaption img cap))
                  st.sections,
              lastText := some txt }
          else
            { st with
              sections :=
                if txt = "" then st.sections
                else appendElem st.sections st.current (Elem.text txt),
              lastText := some txt }
  | DocxBlock.tbl rows =>
      { st with
        sections :=
          appendElem st.sections st.current
            (Elem.table (rows.map (fun r => r.map pyStrip))) }

/-- `DocumentHandler.parse_docx`.  `Document(path)` is the first statement of
the method; a corrupt or unreadable file makes it raise before any handler
field is assigned, which the model renders as input `none`: the handler is
returned unchanged and no model is produced.  On a readable document the walk
always runs to completion and yields the finalized model. -/
def parseDocxState (h : Handler) (doc : Option DocxDoc) :
    Handler × Option ContentModel :=
  match doc with
  | none => (h, none)
  | some d =>
      let imap := extractAllImages "docmaster_images" d.rels
      let st0 : DState :=
        { sections := [("Uncategorized", [])],
          order := ["Uncategorized"],
          current := "Uncategorized",
          lastText := none }
      let stF := d.body.foldl (docxStep imap) st0
      let m := cleanupModel stF.sections stF.order
      ({ sections := m.sections, detected_order := m.order,
         lastText := stF.lastText }, some m)

/-- Specification-side description of the text runs of an input: maximal
groups of consecutive stripped non-blank non-heading lines, delimited by
blank lines, heading lines and end of input.  `cur` is the open run. -/
def textRunsL : List (List Char) → List (List Char) → List (List (List Char))
  | [], cur => if cur = [] then [] else [cur]
  | l :: rest, cur =>
      let s := stripL l
      if s = [] then
        (if cur = [] then [] else [cur]) ++ textRunsL rest []
      else if (detectHeadingL s).isSome then
        (if cur = [] then [] else [cur]) ++ textRunsL rest []
      else
        textRunsL rest (cur ++ [s])

/-- The construction-time invariant of the `parse_text` loop state. -/
def InvPS (st : PState) : Prop :=
  st.order = st.sections.map Prod.fst ∧ st.order.Nodup ∧ st.current ∈ st.order

/-- The construction-time invariant of the `parse_docx` loop state. -/
def InvDS (st : DState) : Prop :=
  st.order = st.sections.map Prod.fst ∧ st.order.Nodup ∧ st.current ∈ st.order

/-! ## Basic facts about the stripping and joining primitives -/

theorem dropWhile_head_not {α : Type} (p : α → Bool) :
    ∀ (l : List α) (c : α), (l.dropWhile p).head? = some c → p c = false := by
  intro l
  induction l with
  | nil => intro c h; simp [List.dropWhile] at h
  | cons a t ih =>
      intro c h
      by_cases ha : p a
      · rw [List.dropWhile_cons_of_pos ha] at h
        exact ih c h
      · rw [List.dropWhile_cons_of_neg ha] at h
        simp at h
        rw [← h]
        exact Bool.eq_false_iff.mpr ha

theorem dropWhile_eq_self_of_head {α : Type} (p : α → Bool) (l : List α)
    (h : ∀ c, l.head? = some c → p c = false) : l.dropWhile p = l := by
  cases l with
  | nil => rfl
  | cons a t =>
      have := h a rfl
      rw [List.dropWhile_cons_of_neg (by simp [this])]

theorem dropWhile_eq_drop {α : Type} (p : α → Bool) :
    ∀ l : List α, ∃ k, l.dropWhile p = l.drop k := by
  intro l
  induction l with
  | nil => exact ⟨0, rfl⟩
  | cons a t ih =>
      by_cases ha : p a
      · obtain ⟨k, hk⟩ := ih
        exact ⟨k + 1, by rw [List.dropWhile_cons_of_pos ha]; simpa using hk⟩
      · exact ⟨0, by rw [List.dropWhile_cons_of_neg ha]; rfl⟩

theorem getLast?_drop_of_ne_nil {α : Type} :
    ∀ (l : List α) (k : ℕ), l.drop k ≠ [] → (l.drop k).getLast? = l.getLast? := by
  intro l
  induction l with
  | nil => intro k h; simp at h
  | cons a t ih =>
      intro k h
      cases k with
      | zero => rfl
      | succ k =>
          rw [List.drop_succ_cons] at h ⊢
          have ht : t ≠ [] := by
            intro he; rw [he] at h; simp at h
          obtain ⟨b, t', rfl⟩ := List.exists_cons_of_ne_nil ht
          rw [List.getLast?_cons_cons]
          exact ih k h

theorem stripL_head_not (l : List Char) (c : Char)
    (h : (stripL l).head? = some c) : isPySpace c = false :=
  dropWhile_head_not isPySpace (dropTrailL l) c h

theorem stripL_getLast_not (l : List Char) (c : Char)
    (h : (stripL l).getLast? = some c) : isPySpace c = false := by
  obtain ⟨k, hk⟩ := dropWhile_eq_drop isPySpace (dropTrailL l)
  have hne : (dropTrailL l).drop k ≠ [] := by
    intro he
    rw [stripL, hk, he] at h
    simp at h
  rw [stripL, hk, getLast?_drop_of_ne_nil _ _ hne] at h
  rw [dropTrailL, List.getLast?_reverse] at h
  exact dropWhile_head_not isPySpace _ c h

theorem stripL_eq_self (l : List Char)
    (h1 : ∀ c, l.head? = some c → isPySpace c = false)
    (h2 : ∀ c, l.getLast? = some c → isPySpace c = false) : stripL l = l := by
  have htrail : dropTrailL l = l := by
    rw [dropTrailL, dropWhile_eq_self_of_head]
    · exact List.reverse_reverse l
    · intro c hc
      rw [List.head?_reverse] at hc
      exact h2 c hc
  rw [stripL, htrail]
  exact dropWhile_eq_self_of_head _ _ h1

theorem joinSpaceL_ne_nil :
    ∀ bs : List (List Char), (∀ b ∈ bs, b ≠ []) → bs ≠ [] → joinSpaceL bs ≠ [] := by
  intro bs hb hne
  match bs with
  | [b] => exact hb b (by simp)
  | b :: b2 :: bs' =>
      show b ++ ' ' :: joinSpaceL (b2 :: bs') ≠ []
      simp

theorem joinSpaceL_head? (b : List Char) (bs : List (List Char)) (hb : b ≠ []) :
    (joinSpaceL (b :: bs)).head? = b.head? := by
  obtain ⟨c, t, rfl⟩ := List.exists_cons_of_ne_nil hb
  cases bs with
  | nil => rfl
  | cons b2 bs' => rfl

theorem joinSpaceL_getLast? :
    ∀ (bs : List (List Char)) (b : List Char), (∀ x ∈ bs, x ≠ []) →
      bs.getLast? = some b → (joinSpaceL bs).getLast? = b.getLast? := by
  intro bs
  induction bs with
  | nil => intro b _ h; simp at h
  | cons x xs ih =>
      intro b hx hlast
      cases xs with
      | nil =>
          simp at hlast
          rw [hlast]
          rfl
      | cons x2 xs' =>
          rw [List.getLast?_cons_cons] at hlast
          have hrec := ih b (fun y hy => hx y (List.mem_cons_of_mem x hy)) hlast
          show (x ++ ' ' :: joinSpaceL (x2 :: xs')).getLast? = b.getLast?
          rw [List.getLast?_append_of_ne_nil _ (by simp)]
          have hjoin : joinSpaceL (x2 :: xs') ≠ [] :=
            joinSpaceL_ne_nil _ (fun y hy => hx y (List.mem_cons_of_mem x hy)) (by simp)
          obtain ⟨c, t, hct⟩ := List.exists_cons_of_ne_nil hjoin
          rw [hct, List.getLast?_cons_cons, ← hct, hrec]

theorem strip_joinSpaceL (bs : List (List Char))
    (h : ∀ b ∈ bs, (∃ x, b = stripL x) ∧ b ≠ []) (hne : bs ≠ []) :
    stripL (joinSpaceL bs) = joinSpaceL bs := by
  obtain ⟨b0, bs', rfl⟩ := List.exists_cons_of_ne_nil hne
  apply stripL_eq_self
  · intro c hc
    rw [joinSpaceL_head? b0 bs' (h b0 (by simp)).2] at hc
    obtain ⟨x, hx⟩ := (h b0 (by simp)).1
    rw [hx] at hc
    exact stripL_head_not x c hc
  · intro c hc
    have hlast : ∃ bl, (b0 :: bs').getLast? = some bl ∧ bl ∈ b0 :: bs' := by
      refine ⟨(b0 :: bs').getLast (by simp), List.getLast?_eq_getLast _ _, ?_⟩
      exact List.getLast_mem _
    obtain ⟨bl, hbl, hmem⟩ := hlast
    rw [joinSpaceL_getLast? _ bl (fun y hy => (h y hy).2) hbl] at hc
    obtain ⟨x, hx⟩ := (h bl hmem).1
    rw [hx] at hc
    exact stripL_getLast_not x c hc

/-! ## Structural facts about the parse-state transitions -/

theorem appendElem_keys (secs : List (String × List Elem)) (k : String) (e : Elem) :
    (appendElem secs k e).map Prod.fst = secs.map Prod.fst := by
  induction secs with
  | nil => rfl
  | cons p t ih =>
      by_cases hp : p.1 = k <;> simp [appendElem, hp] at ih ⊢ <;> exact ih

theorem appendElem_mem (secs : List (String × List Elem)) (k : String) (e : Elem)
    (p' : String × List Elem) (hp : p' ∈ appendElem secs k e)
    (e' : Elem) (he : e' ∈ p'.2) :
    (∃ p ∈ secs, e' ∈ p.2) ∨ e' = e := by
  rw [appendElem, List.mem_map] at hp
  obtain ⟨p, hpmem, hpeq⟩ := hp
  by_cases hk : p.1 = k
  · rw [if_pos hk] at hpeq
    rw [← hpeq] at he
    simp at he
    rcases he with he | he
    · exact Or.inl ⟨p, hpmem, he⟩
    · exact Or.inr he
  · rw [if_neg hk] at hpeq
    rw [← hpeq] at he
    exact Or.inl ⟨p, hpmem, he⟩

theorem flush_keys (st : PState) :
    (flush st).sections.map Prod.fst = st.sections.map Prod.fst := by
  rw [flush]
  split
  · rfl
  · split <;> simp [appendElem_keys]

theorem flush_order (st : PState) : (flush st).order = st.order := by
  rw [flush]; split; · rfl
  split <;> rfl

theorem flush_current (st : PState) : (flush st).current = st.current := by
  rw [flush]; split; · rfl
  split <;> rfl

theorem flush_buffer (st : PState) (h : st.buffer = []) : flush st = st := by
  rw [flush, if_pos h]

theorem inv_flush (st : PState) (h : InvPS st) : InvPS (flush st) := by
  obtain ⟨h1, h2, h3⟩ := h
  exact ⟨by rw [flush_order, flush_keys, h1], by rw [flush_order]; exact h2,
    by rw [flush_order, flush_current]; exact h3⟩

theorem inv_step (st : PState) (l : List Char) (h : InvPS st) : InvPS (step st l) := by
  rw [step]
  split
  · exact inv_flush st h
  · split
    · next hstr hd =>
        have hf := inv_flush st h
        obtain ⟨h1, h2, h3⟩ := hf
        split
        · next hmem => exact ⟨h1, h2, by rw [← h1] at hmem; exact hmem⟩
        · next hmem =>
            refine ⟨?_, ?_, ?_⟩
            · simp [h1]
            · rw [List.nodup_append]
              refine ⟨h2, List.nodup_singleton _, ?_⟩
              intro a ha hb
              simp at hb
              rw [hb, h1] at ha
              exact hmem ha
            · simp
    · exact ⟨h.1, h.2.1, h.2.2⟩

theorem inv_foldl (ls : List (List Char)) :
    ∀ st : PState, InvPS st → InvPS (ls.foldl step st) := by
  induction ls with
  | nil => intro st h; exact h
  | cons l t ih =>
      intro st h
      exact ih (step st l) (inv_step st l h)

theorem inv_initPS : InvPS initPS := by
  refine ⟨rfl, List.nodup_singleton _, by simp [initPS]⟩

theorem inv_finalSt (text : String) : InvPS (finalSt text) :=
  inv_flush _ (inv_foldl _ initPS inv_initPS)

/-- Filtering an association list's nodup key list down to the keys that
survive a bucket filter yields exactly the filtered list's keys. -/
theorem filter_keys_of_nodup (l : List (String × List Elem))
    (q : String × List Elem → Bool) (hn : (l.map Prod.fst).Nodup) :
    (l.map Prod.fst).filter
        (fun s => (l.filter q).any (fun p => p.1 == s))
      = (l.filter q).map Prod.fst := by
  induction l with
  | nil => rfl
  | cons a t ih =>
      rw [List.map_cons, List.nodup_cons] at hn
      obtain ⟨ha, hn'⟩ := hn
      by_cases hq : q a
      · rw [List.filter_cons_of_pos hq, List.map_cons, List.map_cons,
          List.filter_cons_of_pos (by simp)]
        congr 1
        rw [List.filter_congr (q := fun s => (t.filter q).any (fun p => p.1 == s))]
        · exact ih hn'
        · intro s hs
          have hne : a.1 ≠ s := by
            intro he; rw [he] at ha; exact ha hs
          simp [List.any_cons, hne]
      · rw [List.filter_cons_of_neg hq, List.map_cons,
          List.filter_cons_of_neg ?hfa]
        case hfa =>
          simp only [List.any_eq_true, not_exists, not_and]
          rintro p hp
          have hmem : p.1 ∈ t.map Prod.fst :=
            List.mem_map_of_mem Prod.fst (List.mem_of_mem_filter hp)
          have : p.1 ≠ a.1 := by
            intro he; rw [he] at hmem; exact ha hmem
          simp [this]
        rw [List.filter_congr (q := fun s => (t.filter q).any (fun p => p.1 == s))]
        · exact ih hn'
        · intro s hs; rfl

theorem cleanup_props (secs : List (String × List Elem)) (ord : List String)
    (h1 : ord = secs.map Prod.fst) (h2 : ord.Nodup) :
    (cleanupModel secs ord).order = (cleanupModel secs ord).sections.map Prod.fst
    ∧ (cleanupModel secs ord).order.Nodup
    ∧ (∀ p ∈ (cleanupModel secs ord).sections, p.2 ≠ [])
    ∧ (cleanupModel secs ord).order.Sublist ord := by
  subst h1
  refine ⟨?_, ?_, ?_, ?_⟩
  · exact filter_keys_of_nodup secs _ h2
  · exact List.Nodup.filter _ h2
  · intro p hp
    simp only [cleanupModel, List.mem_filter] at hp
    exact of_decide_eq_true hp.2
  · exact List.filter_sublist _

theorem foldl_step_blank (ls : List (List Char)) :
    ∀ st : PState, st.buffer = [] → (∀ l ∈ ls, stripL l = []) →
      ls.foldl step st = st := by
  induction ls with
  | nil => intro st _ _; rfl
  | cons l t ih =>
      intro st hb hl
      have hstep : step st l = st := by
        rw [step, if_pos (hl l (by simp)), flush_buffer st hb]
      rw [List.foldl_cons, hstep]
      exact ih st hb (fun x hx => hl x (List.mem_cons_of_mem l hx))

theorem imgfold_keys (cur : String) (cap : Option String) :
    ∀ (imgs : List Elem) (secs : List (String × List Elem)),
      (imgs.foldl (fun secs img => appendElem secs cur (setCaption img cap)) secs).map
          Prod.fst
        = secs.map Prod.fst := by
  intro imgs
  induction imgs with
  | nil => intro secs; rfl
  | cons i t ih =>
      intro secs
      rw [List.foldl_cons, ih, appendElem_keys]

theorem inv_docxStep (imap : List (String × String)) (st : DState) (b : DocxBlock)
    (h : InvDS st) : InvDS (docxStep imap st b) := by
  obtain ⟨h1, h2, h3⟩ := h
  cases b with
  | par p =>
      simp only [docxStep]
      split
      · next hstr hd =>
          split
          · next hmem =>
              exact ⟨h1, h2, by rw [h1]; exact hmem⟩
          · next hmem =>
              refine ⟨by simp [h1], ?_, by simp⟩
              rw [List.nodup_append]
              refine ⟨h2, List.nodup_singleton _, ?_⟩
              intro a ha hb
              simp at hb
              rw [hb, h1] at ha
              exact hmem ha
      · split
        · exact ⟨by rw [imgfold_keys]; exact h1, h2, h3⟩
        · refine ⟨?_, h2, h3⟩
          split
          · exact h1
          · rw [appendElem_keys]; exact h1
  | tbl rows =>
      exact ⟨by rw [docxStep, appendElem_keys]; exact h1, h2, h3⟩

theorem inv_docx_foldl (bs : List DocxBlock) (imap : List (String × String)) :
    ∀ st : DState, InvDS st → InvDS (bs.foldl (docxStep imap) st) := by
  induction bs with
  | nil => intro st h; exact h
  | cons b t ih =>
      intro st h
      exact ih (docxStep imap st b) (inv_docxStep imap st b h)

theorem flush_buffer_eq (st : PState) : (flush st).buffer = [] := by
  rw [flush]
  split
  · next h => exact h
  · split <;> rfl

theorem flush_sections_good (st : PState)
    (hb : ∀ b ∈ st.buffer, (∃ x, b = stripL x) ∧ b ≠ []) (hne : st.buffer ≠ []) :
    (flush st).sections
      = appendElem st.sections st.current (Elem.text ⟨joinSpaceL st.buffer⟩) := by
  have hj : stripL (joinSpaceL st.buffer) = joinSpaceL st.buffer :=
    strip_joinSpaceL _ hb hne
  have hjn : joinSpaceL st.buffer ≠ [] :=
    joinSpaceL_ne_nil _ (fun b h => (hb b h).2) hne
  rw [flush, if_neg hne, if_neg (by rw [hj]; exact hjn)]
  simp [hj]

theorem textRunsL_cons_blank (l : List Char) (rest : List (List Char))
    (cur : List (List Char)) (h : stripL l = []) :
    textRunsL (l :: rest) cur = (if cur = [] then [] else [cur]) ++ textRunsL rest [] := by
  simp [textRunsL, h]

theorem textRunsL_cons_heading (l : List Char) (rest : List (List Char))
    (cur : List (List Char)) (h1 : stripL l ≠ [])
    (h2 : (detectHeadingL (stripL l)).isSome = true) :
    textRunsL (l :: rest) cur = (if cur = [] then [] else [cur]) ++ textRunsL rest [] := by
  simp [textRunsL, h1, h2]

theorem textRunsL_cons_text (l : List Char) (rest : List (List Char))
    (cur : List (List Char)) (h1 : stripL l ≠ [])
    (h2 : (detectHeadingL (stripL l)).isSome = false) :
    textRunsL (l :: rest) cur = textRunsL rest (cur ++ [stripL l]) := by
  simp [textRunsL, h1, h2]

theorem parse_runs (Q : Elem → Prop) (ls : List (List Char)) :
    ∀ st : PState,
      (∀ b ∈ st.buffer, (∃ x, b = stripL x) ∧ b ≠ []) →
      (∀ p ∈ st.sections, ∀ e ∈ p.2, Q e) →
      (∀ r ∈ textRunsL ls st.buffer, Q (Elem.text ⟨joinSpaceL r⟩)) →
      ∀ p ∈ (flush (ls.foldl step st)).sections, ∀ e ∈ p.2, Q e := by
  induction ls with
  | nil =>
      intro st hb hold hnew p hp e he
      rw [List.foldl_nil] at hp
      by_cases hbuf : st.buffer = []
      · rw [flush_buffer st hbuf] at hp
        exact hold p hp e he
      · rw [flush_sections_good st hb hbuf] at hp
        rcases appendElem_mem _ _ _ p hp e he with ⟨p', hp', he'⟩ | rfl
        · exact hold p' hp' e he'
        · apply hnew
          simp only [textRunsL]
          simp [hbuf]
  | cons l rest ih =>
      intro st hb hold hnew p hp e he
      rw [List.foldl_cons] at hp
      by_cases h1 : stripL l = []
      · have hemit : textRunsL (l :: rest) st.buffer
            = (if st.buffer = [] then [] else [st.buffer]) ++ textRunsL rest [] :=
          textRunsL_cons_blank l rest st.buffer h1
        have hfl : ∀ p' ∈ (flush st).sections, ∀ e' ∈ p'.2, Q e' := by
          intro p' hp' e' he'
          by_cases hbuf : st.buffer = []
          · rw [flush_buffer st hbuf] at hp'
            exact hold p' hp' e' he'
          · rw [flush_sections_good st hb hbuf] at hp'
            rcases appendElem_mem _ _ _ p' hp' e' he' with ⟨p'', hm, hm2⟩ | heq
            · exact hold p'' hm e' hm2
            · rw [heq]
              apply hnew
              rw [hemit]
              simp [hbuf]
        have hnew' : ∀ r ∈ textRunsL rest [], Q (Elem.text ⟨joinSpaceL r⟩) := by
          intro r hr
          apply hnew
          rw [hemit]
          exact List.mem_append_right _ hr
        have hstep : step st l = flush st := by rw [step, if_pos h1]
        rw [hstep] at hp
        refine ih (flush st) ?_ hfl ?_ p hp e he
        · intro b hbm
          rw [flush_buffer_eq] at hbm
          simp at hbm
        · rw [flush_buffer_eq]
          exact hnew'
      · cases hd : detectHeadingL (stripL l) with
        | some hname =>
            have hemit : textRunsL (l :: rest) st.buffer
                = (if st.buffer = [] then [] else [st.buffer]) ++ textRunsL rest [] :=
              textRunsL_cons_heading l rest st.buffer h1 (by rw [hd]; rfl)
            have hfl : ∀ p' ∈ (flush st).sections, ∀ e' ∈ p'.2, Q e' := by
              intro p' hp' e' he'
              by_cases hbuf : st.buffer = []
              · rw [flush_buffer st hbuf] at hp'
                exact hold p' hp' e' he'
              · rw [flush_sections_good st hb hbuf] at hp'
                rcases appendElem_mem _ _ _ p' hp' e' he' with ⟨p'', hm, hm2⟩ | heq
                · exact hold p'' hm e' hm2
                · rw [heq]
                  apply hnew
                  rw [hemit]
                  simp [hbuf]
            have hnew' : ∀ r ∈ textRunsL rest [], Q (Elem.text ⟨joinSpaceL r⟩) := by
              intro r hr
              apply hnew
              rw [hemit]
              exact List.mem_append_right _ hr
            have hstep : step st l
                = (if hname ∈ (flush st).sections.map Prod.fst then
                    { flush st with current := hname }
                  else
                    { flush st with
                      current := hname,
                      sections := (flush st).sections ++ [(hname, [])],
                      order := (flush st).order ++ [hname] }) := by
              simp only [step, if_neg h1, hd]
            by_cases hmem : hname ∈ (flush st).sections.map Prod.fst
            · rw [hstep, if_pos hmem] at hp
              refine ih _ ?_ ?_ ?_ p hp e he
              · intro b hbm
                simp only [flush_buffer_eq] at hbm
                simp at hbm
              · exact hfl
              · simp only [flush_buffer_eq]
                exact hnew'
            · rw [hstep, if_neg hmem] at hp
              refine ih _ ?_ ?_ ?_ p hp e he
              · intro b hbm
                simp only [flush_buffer_eq] at hbm
                simp at hbm
              · intro p' hp' e' he'
                rcases List.mem_append.1 hp' with hm | hm
                · exact hfl p' hm e' he'
                · simp at hm
                  rw [hm] at he'
                  simp at he'
              · simp only [flush_buffer_eq]
                exact hnew'
        | none =>
            have hstep : step st l = { st with buffer := st.buffer ++ [stripL l] } := by
              simp only [step, if_neg h1, hd]
            rw [hstep] at hp
            refine ih _ ?_ ?_ ?_ p hp e he
            · intro b hbm
              rcases List.mem_append.1 hbm with hm | hm
              · exact hb b hm
              · simp at hm
                rw [hm]
                exact ⟨⟨l, rfl⟩, h1⟩
            · exact hold
            · show ∀ r ∈ textRunsL rest (st.buffer ++ [stripL l]), _
              rw [← textRunsL_cons_text l rest st.buffer h1 (by rw [hd]; rfl)]
              exact hnew

/-! ## The claims -/

/-- C1: on the input `"Abstract\nThis paper studies X.\n\nIntroduction\nWe
begin with Y.\n\n"`, `parse_text` produces exactly the sections Abstract and
Introduction in that order, each holding one Text element with the
corresponding paragraph. -/
theorem claim_C1_end_to_end :
    parseTextModel "Abstract\nThis paper studies X.\n\nIntroduction\nWe begin with Y.\n\n"
      = { sections := [("Abstract", [Elem.text "This paper studies X."]),
                       ("Introduction", [Elem.text "We begin with Y."])],
          order := ["Abstract", "Introduction"] } := by
  decide

/-- C3 (code bug): the caption regex `fig(ure)?\s*\d+[:.\-)]\s+` admits no
separator between the `fig`/`figure` keyword and the digits and demands the
`: . - )` separator immediately after the digits, so the line
"Fig. 2 - Growth chart" — which the claim, the specification, and the code's
own comments present as a recognized caption — matches nothing, and
`_detect_caption` returns None instead of the current line.  The first
conjunct evaluates the code at the failing input; the others isolate the
failing regex and show the companion example that does work. -/
theorem claim_C3_caption_fig_dot_fails :
    detectCaption (some "completely unrelated text") (some "Fig. 2 - Growth chart") = none
    ∧ captionMatchL "Fig. 2 - Growth chart".data = false
    ∧ detectCaption (some "Figure 1: Sample output") (some "An image appears here")
        = some "Figure 1: Sample output" := by
  decide

/-- C4: a line that does not match a recognized heading pattern as an entire
line after numbering-stripping is never reported as a heading, including the
substring example from the specification. -/
theorem claim_C4_no_substring_headings :
    (∀ s : String, headingCandidateMatches s.data = false → detectHeadingS s = none)
    ∧ detectHeadingS "The introduction of new methods..." = none := by
  constructor
  · intro s h
    simp [detectHeadingS, detectHeadingL, h]
  · decide

/-- C5: a line matching a recognized heading pattern (optionally prefixed by
digits plus `.` or `)`) yields the numbering-stripped, title-cased original
text, and the two numbering examples of the specification hold. -/
theorem claim_C5_heading_output_shape :
    (∀ s : String, headingCandidateMatches s.data = true →
      detectHeadingS s = some ⟨titleL (stripL (stripNumberingL s.data))⟩)
    ∧ detectHeadingS "1. Introduction" = some "Introduction"
    ∧ detectHeadingS "2) Methodology" = some "Methodology" := by
  refine ⟨?_, by decide, by decide⟩
  intro s h
  have hne : s.data ≠ [] := by
    intro he
    rw [he] at h
    exact absurd h (by decide)
  simp [detectHeadingS, detectHeadingL, hne, h]

/-- C4 witness at a concrete non-heading line. -/
theorem claim_C4_no_substring_headings_witness :
    detectHeadingS "The introduction of new methods..." = none :=
  claim_C4_no_substring_headings.1 "The introduction of new methods..." (by decide)

/-- C5 witness at the two concrete numbered headings. -/
theorem claim_C5_heading_output_shape_witness :
    detectHeadingS "1. Introduction" = some "Introduction"
    ∧ detectHeadingS "2) Methodology" = some "Methodology" :=
  ⟨(claim_C5_heading_output_shape.1 "1. Introduction" (by decide)).trans (by decide),
   (claim_C5_heading_output_shape.1 "2) Methodology" (by decide)).trans (by decide)⟩

/-- C6 counterexample: the classifier labels the reference-like text with the
uppercase string "REFERENCES", not "References" as the claim states (the
title-casing happens only at the call sites that consume the label). -/
theorem claim_C6_counterexample :
    predict_section (fun _ => "INTRODUCTION")
        "[7] Smith et al., 2020, https://doi.org/10.1000/xyz" ≠ "References" := by
  decide

/-- C6 (amended): rules apply in fixed order with first match winning — any
text whose stripped form is under 20 characters is labeled "CUSTOM" whatever
the statistical classifier would say, and any longer text starting with a
bracketed numeral reference or containing a URL/DOI marker is labeled
"REFERENCES" regardless of the statistical classifier. -/
theorem claim_C6_rule_order (classifier : String → String) (text : String) :
    ((pyStrip text).data.length < 20 → predict_section classifier text = "CUSTOM")
    ∧ (¬ (pyStrip text).data.length < 20 →
        (startsBracketNumL (stripL (pyStrip text).data) = true
          ∨ substrL "doi.org".data (stripL (lowerL (pyStrip text).data)) = true
          ∨ substrL "http://".data (stripL (lowerL (pyStrip text).data)) = true
          ∨ substrL "https://".data (stripL (lowerL (pyStrip text).data)) = true) →
        predict_section classifier text = "REFERENCES") := by
  constructor
  · intro h
    rw [predict_section, if_pos h]
  · intro h hr
    rw [predict_section, if_neg h]
    have : ruleBasedLabel (pyStrip text) = some "REFERENCES" := by
      rw [ruleBasedLabel]
      rcases hr with hb | hu | hu | hu
      · rw [if_pos hb]
      all_goals
        by_cases hb : startsBracketNumL (stripL (pyStrip text).data)
        · rw [if_pos hb]
        · rw [if_neg hb, if_pos (by simp [hu])]
    rw [this]

/-- C6 witness: the short-text rule and the reference rule at concrete
inputs, with a statistical classifier that would answer differently. -/
theorem claim_C6_rule_order_witness :
    predict_section (fun _ => "INTRODUCTION") "tiny" = "CUSTOM"
    ∧ predict_section (fun _ => "INTRODUCTION")
        "[7] Smith et al., 2020, https://doi.org/10.1000/xyz" = "REFERENCES" :=
  ⟨(claim_C6_rule_order (fun _ => "INTRODUCTION") "tiny").1 (by decide),
   (claim_C6_rule_order (fun _ => "INTRODUCTION")
      "[7] Smith et al., 2020, https://doi.org/10.1000/xyz").2
     (by decide) (by decide)⟩

/-- C7: when the source document cannot be read, `Document(path)` raises
before any handler field is assigned, so the parse yields a document-read
error (no model) and the handler's `sections` and `detected_order` are
exactly what they were before the call. -/
theorem claim_C7_corrupt_doc_no_mutation (h : Handler) :
    parseDocxState h none = (h, none)
    ∧ (parseDocxState h none).1.sections = h.sections
    ∧ (parseDocxState h none).1.detected_order = h.detected_order :=
  ⟨rfl, rfl, rfl⟩

/-- C9: `parse_text` resets the handler state before parsing, so its result
is a function of the input text only — parsing the same input on any two
handlers, or twice in a row on the same handler, produces structurally
identical sections and order. -/
theorem claim_C9_parse_text_deterministic (h₁ h₂ : Handler) (text : String) :
    (parseTextH h₁ text).sections = (parseTextH (parseTextH h₂ text) text).sections
    ∧ (parseTextH h₁ text).detected_order
        = (parseTextH (parseTextH h₂ text) text).detected_order
    ∧ (parseTextH h₁ text).sections = (parseTextModel text).sections
    ∧ (parseTextH h₁ text).detected_order = (parseTextModel text).order :=
  ⟨rfl, rfl, rfl, rfl⟩

theorem extractAllImages_go (imageDir : String) :
    ∀ (rels : List DocxRel) (acc : List (String × String)),
      rels.foldl
        (fun acc r =>
          if r.fails then acc
          else if substrL "image".data r.reltype.data then
            acc ++ [(r.rId, imageDir ++ "/" ++ r.fname)]
          else acc)
        acc
      = acc ++ (rels.filter
            (fun r => !r.fails && substrL "image".data r.reltype.data)).map
          (fun r => (r.rId, imageDir ++ "/" ++ r.fname)) := by
  intro rels
  induction rels with
  | nil => intro acc; simp
  | cons r t ih =>
      intro acc
      rw [List.foldl_cons]
      by_cases hf : r.fails
      · simp only [if_pos hf]
        rw [ih, List.filter_cons_of_neg (by simp [hf])]
      · by_cases hs : substrL "image".data r.reltype.data
        · simp only [if_neg hf, if_pos hs]
          rw [ih, List.filter_cons_of_pos (by simp [hf, hs])]
          simp
        · simp only [if_neg hf, if_neg hs]
          rw [ih, List.filter_cons_of_neg (by simp [hf, hs])]

theorem foldl_append_map {α β : Type} (g : α → β) :
    ∀ (l : List α) (acc : List β),
      l.foldl (fun a x => a ++ [g x]) acc = acc ++ l.map g := by
  intro l
  induction l with
  | nil => intro acc; simp
  | cons x xs ih =>
      intro acc
      rw [List.foldl_cons, ih]
      simp

/-- C8: a failed extraction of one embedded image is non-fatal — the failing
relationship is simply skipped (the rId → path map is exactly the map over
the non-failing image relationships), a paragraph image whose rId is absent
from the map is kept with its path `none`, and the walk over a readable
document always completes and produces a model. -/
theorem claim_C8_image_failure_nonfatal (imageDir : String) (rels : List DocxRel)
    (p : DocxPara) (imap : List (String × String)) (h : Handler) (d : DocxDoc) :
    extractAllImages imageDir rels
      = (rels.filter
            (fun r => !r.fails && substrL "image".data r.reltype.data)).map
          (fun r => (r.rId, imageDir ++ "/" ++ r.fname))
    ∧ extractImagesFromParagraph p imap
        = p.images.map
            (fun im => Elem.image (dictGet imap im.embedRId) none (im.descr.getD "") false)
    ∧ (parseDocxState h (some d)).2.isSome = true := by
  refine ⟨?_, ?_, rfl⟩
  · have hgo := extractAllImages_go imageDir rels []
    rw [List.nil_append] at hgo
    exact hgo
  · have hgo := foldl_append_map
      (fun im => Elem.image (dictGet imap im.embedRId) none (im.descr.getD "") false)
      p.images []
    rw [List.nil_append] at hgo
    exact hgo

/-- C2: after finalization the order list is exactly the keys of the
sections mapping (hence a duplicate-free permutation), every listed section
is non-empty (a heading that collected no content is pruned and has no
entry), the relative order of the survivors is the pre-cleanup encounter
order, a whitespace-only input yields the empty model, and the same
invariants hold for the model produced by a successful `parse_docx`. -/
theorem claim_C2_model_invariants (text : String) :
    ((parseTextModel text).order = (parseTextModel text).sections.map Prod.fst)
    ∧ (parseTextModel text).order.Nodup
    ∧ (∀ p ∈ (parseTextModel text).sections, p.2 ≠ [])
    ∧ (parseTextModel text).order.Sublist (finalSt text).order
    ∧ (∀ n ∈ (parseTextModel text).order,
        ∃ es, (n, es) ∈ (parseTextModel text).sections ∧ es ≠ [])
    ∧ ((∀ l ∈ pyLines text, stripL l = []) → parseTextModel text = ⟨[], []⟩)
    ∧ (∀ (h : Handler) (d : DocxDoc) (m : ContentModel),
        (parseDocxState h (some d)).2 = some m →
        m.order = m.sections.map Prod.fst ∧ m.order.Nodup
          ∧ ∀ p ∈ m.sections, p.2 ≠ []) := by
  simp only [parseTextModel]
  obtain ⟨h1, h2, h3⟩ := inv_finalSt text
  obtain ⟨c1, c2, c3, c4⟩ :=
    cleanup_props (finalSt text).sections (finalSt text).order h1 h2
  refine ⟨c1, c2, c3, c4, ?_, ?_, ?_⟩
  · intro n hn
    rw [c1, List.mem_map] at hn
    obtain ⟨q, hq, hqe⟩ := hn
    refine ⟨q.2, ?_, c3 q hq⟩
    rw [← hqe]
    exact hq
  · intro hblank
    have hfin : finalSt text = initPS := by
      rw [finalSt, foldl_step_blank _ initPS rfl hblank, flush_buffer _ rfl]
    rw [hfin]
    rfl
  · intro h d m hm
    simp only [parseDocxState, Option.some.injEq] at hm
    have hinv : InvDS (d.body.foldl
        (docxStep (extractAllImages "docmaster_images" d.rels))
        { sections := [("Uncategorized", [])],
          order := ["Uncategorized"],
          current := "Uncategorized",
          lastText := none }) := by
      apply inv_docx_foldl
      exact ⟨rfl, List.nodup_singleton _, by simp⟩
    obtain ⟨d1, d2, d3⟩ := hinv
    obtain ⟨e1, e2, e3, _⟩ := cleanup_props _ _ d1 d2
    rw [← hm]
    exact ⟨e1, e2, e3⟩

/-- C2 witness: the whitespace-only input scenario and the docx invariants
at a concrete empty document. -/
theorem claim_C2_model_invariants_witness :
    parseTextModel " \n\t\n" = ⟨[], []⟩
    ∧ ((⟨[], []⟩ : ContentModel).order
          = (⟨[], []⟩ : ContentModel).sections.map Prod.fst
        ∧ (⟨[], []⟩ : ContentModel).order.Nodup
        ∧ ∀ p ∈ (⟨[], []⟩ : ContentModel).sections, p.2 ≠ []) :=
  ⟨(claim_C2_model_invariants " \n\t\n").2.2.2.2.2.1 (by decide),
   (claim_C2_model_invariants "").2.2.2.2.2.2 ⟨[], [], none⟩ ⟨[], []⟩ ⟨[], []⟩ rfl⟩

/-- C10: in text mode every element of the final model is a Text element,
and its content is the stripped non-blank lines of one run of the input
(delimited by blank lines, heading lines, or end of input) joined by single
spaces. -/
theorem claim_C10_text_mode_elements (text : String) :
    ∀ p ∈ (parseTextModel text).sections, ∀ e ∈ p.2,
      ∃ c, e = Elem.text c
        ∧ ∃ r ∈ textRunsL (pyLines text) [], c = ⟨joinSpaceL r⟩ := by
  intro p hp e he
  have hmem : p ∈ (flush ((pyLines text).foldl step initPS)).sections := by
    simp only [parseTextModel, cleanupModel, finalSt] at hp
    exact List.mem_of_mem_filter hp
  refine parse_runs
    (fun e => ∃ c, e = Elem.text c
      ∧ ∃ r ∈ textRunsL (pyLines text) [], c = ⟨joinSpaceL r⟩)
    (pyLines text) initPS ?_ ?_ ?_ p hmem e he
  · intro b hb
    simp [initPS] at hb
  · intro p' hp' e' he'
    simp [initPS] at hp'
    rw [hp'] at he'
    simp at he'
  · intro r hr
    exact ⟨⟨joinSpaceL r⟩, rfl, r, hr, rfl⟩

/-- C10 witness at a concrete two-line input. -/
theorem claim_C10_text_mode_elements_witness :
    ∃ c, Elem.text "alpha beta" = Elem.text c
      ∧ ∃ r ∈ textRunsL (pyLines "alpha\nbeta") [], c = ⟨joinSpaceL r⟩ :=
  claim_C10_text_mode_elements "alpha\nbeta"
    ("Uncategorized", [Elem.text "alpha beta"]) (by decide)
    (Elem.text "alpha beta") (by decide)
